import Mathlib

/-!
A shallow embedding of `src/cprover/chc_db.h` (CHC clause database of a
Horn-clause verification engine): the `horn_clauset` clause wrapper, the
`chc_dbt` clause database with its use/def indices, and the `chc_grapht`
dependency graph.  Expressions (`exprt`) are modelled as a first-order
term tree with the constructors the header inspects (boolean constants,
symbols, implications, function applications) plus a generic node for
every other operator; `visit_pre` becomes the pre-order sub-term list.
-/

namespace ChcDb

/-- The logic-term type (CBMC's `exprt`), restricted to the shape the header
inspects: boolean literals, `symbol_exprt`, `implies_exprt`,
`function_application_exprt`, and a generic `node` for any other operator
(`and`, `or`, `not`, ...) with its operand list. -/
inductive exprt where
  | constant (value : Bool)
  | symbol (name : String)
  | implies (lhs rhs : exprt)
  | funapp (fn : exprt) (args : List exprt)
  | node (id : String) (ops : List exprt)

mutual
/-- Structural equality of terms (`irept::operator==`). -/
def exprt.beq : exprt → exprt → Bool
  | .constant a, .constant b => a == b
  | .symbol a, .symbol b => a == b
  | .implies a b, .implies c d => exprt.beq a c && exprt.beq b d
  | .funapp f a, .funapp g b => exprt.beq f g && exprt.beqList a b
  | .node i a, .node j b => i == j && exprt.beqList a b
  | _, _ => false

/-- Structural equality of operand lists. -/
def exprt.beqList : List exprt → List exprt → Bool
  | [], [] => true
  | e :: es, f :: fs => exprt.beq e f && exprt.beqList es fs
  | [], _ :: _ => false
  | _ :: _, [] => false
end

mutual
theorem exprt.beq_iff : ∀ a b : exprt, exprt.beq a b = true ↔ a = b
  | .constant a, .constant b => by simp [exprt.beq]
  | .constant _, .symbol _ => by simp [exprt.beq]
  | .constant _, .implies _ _ => by simp [exprt.beq]
  | .constant _, .funapp _ _ => by simp [exprt.beq]
  | .constant _, .node _ _ => by simp [exprt.beq]
  | .symbol _, .constant _ => by simp [exprt.beq]
  | .symbol a, .symbol b => by simp [exprt.beq]
  | .symbol _, .implies _ _ => by simp [exprt.beq]
  | .symbol _, .funapp _ _ => by simp [exprt.beq]
  | .symbol _, .node _ _ => by simp [exprt.beq]
  | .implies _ _, .constant _ => by simp [exprt.beq]
  | .implies _ _, .symbol _ => by simp [exprt.beq]
  | .implies a b, .implies c d => by
      simp [exprt.beq, exprt.beq_iff a c, exprt.beq_iff b d]
  | .implies _ _, .funapp _ _ => by simp [exprt.beq]
  | .implies _ _, .node _ _ => by simp [exprt.beq]
  | .funapp _ _, .constant _ => by simp [exprt.beq]
  | .funapp _ _, .symbol _ => by simp [exprt.beq]
  | .funapp _ _, .implies _ _ => by simp [exprt.beq]
  | .funapp f a, .funapp g b => by
      simp [exprt.beq, exprt.beq_iff f g, exprt.beqList_iff a b]
  | .funapp _ _, .node _ _ => by simp [exprt.beq]
  | .node _ _, .constant _ => by simp [exprt.beq]
  | .node _ _, .symbol _ => by simp [exprt.beq]
  | .node _ _, .implies _ _ => by simp [exprt.beq]
  | .node _ _, .funapp _ _ => by simp [exprt.beq]
  | .node i a, .node j b => by
      simp [exprt.beq, exprt.beqList_iff a b]

theorem exprt.beqList_iff : ∀ a b : List exprt, exprt.beqList a b = true ↔ a = b
  | [], [] => by simp [exprt.beqList]
  | [], _ :: _ => by simp [exprt.beqList]
  | _ :: _, [] => by simp [exprt.beqList]
  | e :: es, f :: fs => by
      simp [exprt.beqList, exprt.beq_iff e f, exprt.beqList_iff es fs]
end

instance : DecidableEq exprt := fun a b =>
  decidable_of_iff _ (exprt.beq_iff a b)

/-- `can_cast_expr<function_application_exprt>`: does the node itself carry
id `ID_function_application`? -/
def exprt.isFunApp : exprt → Bool
  | .funapp _ _ => true
  | _ => false

/-- `can_cast_expr<implies_exprt>`: does the node carry id `ID_implies`? -/
def exprt.isImplies : exprt → Bool
  | .implies _ _ => true
  | _ => false

mutual
/-- The pre-order sub-term list of a term: the node itself, then the
sub-terms of its operands left to right — the visit order of
`exprt::visit_pre`. -/
def exprt.subterms : exprt → List exprt
  | .constant b => [.constant b]
  | .symbol s => [.symbol s]
  | .implies a b => .implies a b :: (a.subterms ++ b.subterms)
  | .funapp f args => .funapp f args :: (f.subterms ++ exprt.subtermsList args)
  | .node i ops => .node i ops :: exprt.subtermsList ops

/-- Pre-order sub-terms of an operand list, left to right. -/
def exprt.subtermsList : List exprt → List exprt
  | [] => []
  | e :: es => e.subterms ++ exprt.subtermsList es
end

mutual
/-- The boolean flag computed by the `visit_pre` callbacks of `is_fact` and
`is_query`: does any sub-term satisfy
`can_cast_expr<function_application_exprt>`? -/
def exprt.hasFunApp : exprt → Bool
  | .constant _ => false
  | .symbol _ => false
  | .implies a b => a.hasFunApp || b.hasFunApp
  | .funapp _ _ => true
  | .node _ ops => exprt.hasFunAppList ops

/-- Does any term of the list contain a function-application sub-term? -/
def exprt.hasFunAppList : List exprt → Bool
  | [] => false
  | e :: es => e.hasFunApp || exprt.hasFunAppList es
end

/-- `exprt::is_true()`: a constant of boolean type whose value is not
`false`. Only a `constant` node can satisfy it. -/
def exprt.is_true : exprt → Bool
  | .constant b => b
  | _ => false

/-- CBMC's `forall_exprt`: the bound variables and the matrix
(`forall_exprt::where()`). -/
structure forall_exprt where
  vars : List String
  whr : exprt
deriving DecidableEq

/-- `exprt::is_true()` called on a `forall_exprt`: the node has id
`ID_forall`, never `ID_constant`, so `is_constant()` — and with it
`is_true()` — is false for every `forall_exprt`. -/
def forall_exprt.is_true (_ : forall_exprt) : Bool := false

/-- `horn_clauset`: a wrapper around one `forall_exprt`. -/
structure horn_clauset where
  m_chc : forall_exprt
deriving DecidableEq

/-- `horn_clauset::get_chc()`. -/
def horn_clauset.get_chc (c : horn_clauset) : forall_exprt := c.m_chc

/-- `horn_clauset::body()`: the antecedent when the matrix is an
implication, otherwise the whole matrix. -/
def horn_clauset.body (c : horn_clauset) : exprt :=
  match c.m_chc.whr with
  | .implies a _ => a
  | w => w

/-- `horn_clauset::head()`: the consequent when the matrix is an
implication, otherwise `nullptr` (modelled as `none`). -/
def horn_clauset.head (c : horn_clauset) : Option exprt :=
  match c.m_chc.whr with
  | .implies _ b => some b
  | _ => none

/-- `horn_clauset::is_fact()`: visit the body pre-order, set `not_fact` on
any function-application node, return its negation. -/
def horn_clauset.is_fact (c : horn_clauset) : Bool :=
  ! c.body.hasFunApp

/-- `horn_clauset::is_query()`: when the matrix is an implication, visit the
head pre-order and clear `res` on any function-application node; for a
non-implication matrix return false. -/
def horn_clauset.is_query (c : horn_clauset) : Bool :=
  match c.m_chc.whr with
  | .implies _ b => ! b.hasFunApp
  | _ => false

/-- `chc_dbt::chc_sett`: a set of clause ids
(`std::unordered_set<std::size_t>`), modelled as a list. -/
abbrev chc_sett := List Nat

/-- `chc_dbt::chc_indext`: `std::map<exprt, chc_sett>`, modelled as an
association list keyed by terms. -/
abbrev chc_indext := List (exprt × chc_sett)

/-- The clause database `chc_dbt`: the clause corpus, the declared state
predicates (`m_state_preds`, an `unordered_set<symbol_exprt>` modelled as a
duplicate-free list of symbol names), and the two indices. -/
structure chc_dbt where
  m_clauses : List horn_clauset
  m_state_preds : List String
  m_body_idx : chc_indext
  m_head_idx : chc_indext
deriving DecidableEq

/-- `chc_dbt()`: the default-constructed database. -/
def chc_dbt.empty : chc_dbt := ⟨[], [], [], []⟩

/-- The static member `chc_dbt::m_empty_set` — the shared value every miss
lookup returns. -/
def chc_dbt.m_empty_set : chc_sett := []

/-- `chc_dbt::add_state_pred`: `unordered_set::insert`, a no-op when the
symbol is already present. -/
def chc_dbt.add_state_pred (db : chc_dbt) (s : String) : chc_dbt :=
  if s ∈ db.m_state_preds then db
  else { db with m_state_preds := s :: db.m_state_preds }

/-- `chc_dbt::has_state_pred`: `m_state_preds.count(state) > 0`. -/
def chc_dbt.has_state_pred (db : chc_dbt) (s : String) : Bool :=
  s ∈ db.m_state_preds

/-- `chc_dbt::use`: look `state` up in `m_body_idx`; a miss returns the
shared `m_empty_set`. -/
def chc_dbt.use (db : chc_dbt) (state : exprt) : chc_sett :=
  match db.m_body_idx.find? (fun p => decide (p.1 = state)) with
  | none => chc_dbt.m_empty_set
  | some p => p.2

/-- `chc_dbt::def_` (the header's `def`, renamed since `def` is a Lean
keyword): look `state` up in `m_head_idx`; a miss returns the shared
`m_empty_set`. -/
def chc_dbt.def_ (db : chc_dbt) (state : exprt) : chc_sett :=
  match db.m_head_idx.find? (fun p => decide (p.1 = state)) with
  | none => chc_dbt.m_empty_set
  | some p => p.2

/-- Modelled from the spec: `chc_dbt::reset_indices` is declared in the
header but implemented in `chc_db.cpp`, which is not part of the sources;
the spec states it "clears both indices". -/
def chc_dbt.reset_indices (db : chc_dbt) : chc_dbt :=
  { db with m_body_idx := [], m_head_idx := [] }

/-- `chc_dbt::add_clause`: return unchanged when `f.is_true()`; return
unchanged when a structurally-equal clause is already stored (linear scan);
otherwise append the clause and reset both indices. -/
def chc_dbt.add_clause (db : chc_dbt) (f : forall_exprt) : chc_dbt :=
  if f.is_true then db
  else if db.m_clauses.any (fun c => decide (c.get_chc = f)) then db
  else chc_dbt.reset_indices { db with m_clauses := db.m_clauses ++ [⟨f⟩] }

/-- `chc_dbt::get_clause`: `INVARIANT(idx < m_clauses.size())` then
`m_clauses[idx]`; the fatal assertion is modelled as `none`. -/
def chc_dbt.get_clause (db : chc_dbt) (idx : Nat) : Option horn_clauset :=
  db.m_clauses.get? idx

/-- `find_symbols`: the set of symbol sub-terms occurring anywhere in a
term (CBMC's `find_symbols` visits every operand, the function position of
an application included), as a duplicate-free list of names. -/
def find_symbols (e : exprt) : List String :=
  (e.subterms.filterMap fun t =>
    match t with
    | .symbol s => some s
    | _ => none).dedup

/-- `horn_clauset::used_relations`: the declared state predicates among
`find_symbols(*body())`, each emitted once. -/
def horn_clauset.used_relations (c : horn_clauset) (db : chc_dbt) :
    List String :=
  (find_symbols c.body).filter db.has_state_pred

/-- `horn_clauset::used_func_app`: the distinct function-application
sub-terms of the body whose applied function is a symbol declared as a
state predicate, each emitted once.  (The header casts `f.function()` with
`to_symbol_expr`; an application whose function is not a symbol is outside
that precondition and is not emitted.) -/
def horn_clauset.used_func_app (c : horn_clauset) (db : chc_dbt) :
    List exprt :=
  ((c.body.subterms.filter exprt.isFunApp).dedup).filter fun f =>
    match f with
    | .funapp (.symbol s) _ => db.has_state_pred s
    | _ => false

/-- Insert clause id `i` into the id set of key `k` of an index
(`std::map` insert-or-extend; the id set has set semantics). -/
def idxInsert (m : chc_indext) (k : exprt) (i : Nat) : chc_indext :=
  match m with
  | [] => [(k, [i])]
  | p :: rest =>
      if p.1 = k then (p.1, if i ∈ p.2 then p.2 else p.2 ++ [i]) :: rest
      else p :: idxInsert rest k i

/-- The relation symbol the def-index records for a clause: the head, when
present and itself a single function application of a declared relation. -/
def horn_clauset.headDefRel (c : horn_clauset) (db : chc_dbt) :
    Option String :=
  match c.head with
  | some (.funapp (.symbol s) _) =>
      if db.has_state_pred s then some s else none
  | _ => none

/-- One `used_func_app` hit of clause `i`: record `(relation, id)` in the
use-index. -/
def record_use (i : Nat) (d : chc_dbt) (f : exprt) : chc_dbt :=
  match f with
  | .funapp (.symbol s) _ =>
      { d with m_body_idx := idxInsert d.m_body_idx (.symbol s) i }
  | _ => d

/-- The `build_indices` pass over one clause (id, clause): every relation
application `used_func_app` finds in the body goes to the use-index; a
head that is itself a single application of a declared relation goes to
the def-index. -/
def index_clause (db : chc_dbt) (d : chc_dbt) (p : Nat × horn_clauset) :
    chc_dbt :=
  let d1 := (p.2.used_func_app db).foldl (record_use p.1) d
  match p.2.headDefRel db with
  | some s =>
      { d1 with m_head_idx := idxInsert d1.m_head_idx (.symbol s) p.1 }
  | none => d1

/-- Modelled from the spec: `chc_dbt::build_indices` is declared in the
header but implemented in `chc_db.cpp`, which is not part of the sources.
The spec: "for each clause, for each relation application found by
`used_func_app` in the body, record (relation, id) in the use-index. For
the head: if present and it is itself a single function-application of a
declared relation, record (relation, id) in the def-index"; rebuilding
starts from cleared indices. -/
def chc_dbt.build_indices (db : chc_dbt) : chc_dbt :=
  db.m_clauses.enum.foldl (index_clause db) db.reset_indices

/-- The syntactic head relation of a clause: the applied symbol, when the
head is present and is a single function application of a symbol. -/
def horn_clauset.headRelName (c : horn_clauset) : Option String :=
  match c.head with
  | some (.funapp (.symbol s) _) => some s
  | _ => none

/-- Whether `R` is the head relation of at least one fact clause of the
database. -/
def chc_dbt.factHead (db : chc_dbt) (R : String) : Bool :=
  db.m_clauses.any fun c => c.is_fact && decide (c.headRelName = some R)

/-- `chc_grapht`: the two adjacency maps (`std::map<exprt,
unordered_set<exprt>>`, keyed here by relation-symbol name) and the
optional entry relation (`m_entry`, a possibly-null pointer). -/
structure chc_grapht where
  m_incoming : List (String × List String)
  m_outgoing : List (String × List String)
  m_entry : Option String
deriving DecidableEq

/-- The static member `chc_grapht::m_expr_empty_set` — the shared value
every miss lookup returns. -/
def chc_grapht.m_expr_empty_set : List String := []

/-- `chc_grapht::has_entry`: `m_entry != nullptr`. -/
def chc_grapht.has_entry (g : chc_grapht) : Bool := g.m_entry.isSome

/-- `chc_grapht::entry`: `INVARIANT(has_entry())` then `m_entry`; the
fatal assertion is modelled as `none`. -/
def chc_grapht.entry (g : chc_grapht) : Option String :=
  if g.has_entry then g.m_entry else none

/-- `chc_grapht::outgoing`: look the relation up in `m_outgoing`; a miss
returns the shared `m_expr_empty_set`. -/
def chc_grapht.outgoing (g : chc_grapht) (state : String) : List String :=
  match g.m_outgoing.find? (fun p => decide (p.1 = state)) with
  | none => chc_grapht.m_expr_empty_set
  | some p => p.2

/-- `chc_grapht::incoming`: look the relation up in `m_incoming`; a miss
returns the shared `m_expr_empty_set`. -/
def chc_grapht.incoming (g : chc_grapht) (state : String) : List String :=
  match g.m_incoming.find? (fun p => decide (p.1 = state)) with
  | none => chc_grapht.m_expr_empty_set
  | some p => p.2

/-- Insert `v` into the adjacency set of key `k` (set semantics). -/
def adjInsert (m : List (String × List String)) (k v : String) :
    List (String × List String) :=
  match m with
  | [] => [(k, [v])]
  | p :: rest =>
      if p.1 = k then (p.1, if v ∈ p.2 then p.2 else p.2 ++ [v]) :: rest
      else p :: adjInsert rest k v

/-- Record the directed edge `u → s` in both adjacency maps. -/
def add_edge (s : String) (g2 : chc_grapht) (u : String) : chc_grapht :=
  { g2 with
    m_outgoing := adjInsert g2.m_outgoing u s
    m_incoming := adjInsert g2.m_incoming s u }

/-- The edge contribution of one clause: a clause that is neither a fact
nor a query — one with a relation-bearing body and a head that is a
single application of a declared relation — adds an edge from each
relation used in its body to its head relation; facts and queries add
nothing. -/
def graph_clause (db : chc_dbt) (g : chc_grapht) (c : horn_clauset) :
    chc_grapht :=
  match c.headDefRel db with
  | some s =>
      if c.is_fact then g
      else (c.used_relations db).foldl (add_edge s) g
  | none => g

/-- Modelled from the spec: the edge-building pass of
`chc_grapht::build_graph`, which is implemented in `chc_db.cpp` and not
part of the sources.  The spec: "for every clause that is neither a fact
nor a query (i.e., has both a relation-bearing body and a head that is a
single relation application), add a directed edge from each relation used
in the body to the head relation, in both the outgoing and incoming
adjacency maps". -/
def chc_grapht.build_edges (db : chc_dbt) : chc_grapht :=
  db.m_clauses.foldl (graph_clause db) ⟨[], [], none⟩

/-- Modelled from the spec: the entry-candidate list of
`chc_grapht::build_graph` — the declared relations that are "the head of
at least one fact clause and [have] zero incoming edges in the built
graph". -/
def chc_grapht.entry_cands (db : chc_dbt) : List String :=
  db.m_state_preds.filter fun R =>
    db.factHead R && ((chc_grapht.build_edges db).incoming R).isEmpty

/-- Modelled from the spec: `chc_grapht::build_graph` (implemented in
`chc_db.cpp`, not part of the sources) builds the edge maps and then, "if
exactly one such relation exists, it becomes `entry`; otherwise
`has_entry()` is false". -/
def chc_grapht.build_graph (db : chc_dbt) : chc_grapht :=
  match chc_grapht.entry_cands db with
  | [R] => { chc_grapht.build_edges db with m_entry := some R }
  | _ => chc_grapht.build_edges db

/-- The spec's entry condition for a relation symbol, stated from the
spec's words: declared, the head of at least one fact clause, and with
zero incoming edges in the built graph. -/
def entry_candidatep (db : chc_dbt) (R : String) : Prop :=
  R ∈ db.m_state_preds ∧
  (∃ c ∈ db.m_clauses, c.is_fact = true ∧ c.headRelName = some R) ∧
  (chc_grapht.build_graph db).incoming R = []

/-- The spec's §8 example database: relations `Init`, `Step`, `Reach`, the
fact `∀x. True ⇒ Init(x)` and the rule
`∀x y. Init(x) ∧ Step(x,y) ⇒ Reach(y)`. -/
def dbExample : chc_dbt :=
  ((((chc_dbt.empty.add_state_pred "Init").add_state_pred
          "Step").add_state_pred "Reach").add_clause
      ⟨["x"], .implies (.constant true)
        (.funapp (.symbol "Init") [.symbol "x"])⟩).add_clause
    ⟨["x", "y"],
      .implies
        (.node "and"
          [.funapp (.symbol "Init") [.symbol "x"],
           .funapp (.symbol "Step") [.symbol "x", .symbol "y"]])
        (.funapp (.symbol "Reach") [.symbol "y"])⟩

/-- The clause `∀x. R(x) ⇒ False` of the concrete index scenarios. -/
def fUseR : forall_exprt :=
  ⟨["x"], .implies (.funapp (.symbol "R") [.symbol "x"]) (.constant false)⟩

/-- The clause `∀x. True ⇒ R(x)` of the concrete index scenarios. -/
def fDefR : forall_exprt :=
  ⟨["x"], .implies (.constant true) (.funapp (.symbol "R") [.symbol "x"])⟩

/-- A database with `R` declared, the single clause `∀x. R(x) ⇒ False`,
and freshly built indices, so that `use(R) = {0}`. -/
def dbIndexed : chc_dbt :=
  ((chc_dbt.empty.add_state_pred "R").add_clause fUseR).build_indices

theorem subterms_ne_nil (e : exprt) : e.subterms ≠ [] := by
  cases e <;> simp [exprt.subterms]

theorem self_mem_subterms (e : exprt) : e ∈ e.subterms := by
  cases e <;> simp [exprt.subterms]

mutual
theorem hasFunApp_iff_subterm (e : exprt) :
    e.hasFunApp = true ↔ ∃ t ∈ e.subterms, t.isFunApp = true := by
  cases e with
  | constant b => simp [exprt.hasFunApp, exprt.subterms, exprt.isFunApp]
  | symbol s => simp [exprt.hasFunApp, exprt.subterms, exprt.isFunApp]
  | implies a b =>
      simp only [exprt.hasFunApp, exprt.subterms, Bool.or_eq_true,
        hasFunApp_iff_subterm a, hasFunApp_iff_subterm b, List.mem_cons,
        List.mem_append]
      constructor
      · rintro (⟨t, ht, hf⟩ | ⟨t, ht, hf⟩)
        · exact ⟨t, Or.inr (Or.inl ht), hf⟩
        · exact ⟨t, Or.inr (Or.inr ht), hf⟩
      · rintro ⟨t, (rfl | ht | ht), hf⟩
        · simp [exprt.isFunApp] at hf
        · exact Or.inl ⟨t, ht, hf⟩
        · exact Or.inr ⟨t, ht, hf⟩
  | funapp f args =>
      simp [exprt.hasFunApp, exprt.subterms, exprt.isFunApp]
  | node i ops =>
      simp only [exprt.hasFunApp, exprt.subterms,
        hasFunAppList_iff_subterm ops, List.mem_cons]
      constructor
      · rintro ⟨t, ht, hf⟩
        exact ⟨t, Or.inr ht, hf⟩
      · rintro ⟨t, (rfl | ht), hf⟩
        · simp [exprt.isFunApp] at hf
        · exact ⟨t, ht, hf⟩

theorem hasFunAppList_iff_subterm (l : List exprt) :
    exprt.hasFunAppList l = true ↔
      ∃ t ∈ exprt.subtermsList l, t.isFunApp = true := by
  cases l with
  | nil => simp [exprt.hasFunAppList, exprt.subtermsList]
  | cons e es =>
      simp only [exprt.hasFunAppList, exprt.subtermsList, Bool.or_eq_true,
        hasFunApp_iff_subterm e, hasFunAppList_iff_subterm es,
        List.mem_append]
      constructor
      · rintro (⟨t, ht, hf⟩ | ⟨t, ht, hf⟩)
        · exact ⟨t, Or.inl ht, hf⟩
        · exact ⟨t, Or.inr ht, hf⟩
      · rintro ⟨t, (ht | ht), hf⟩
        · exact Or.inl ⟨t, ht, hf⟩
        · exact Or.inr ⟨t, ht, hf⟩
end


theorem hasFunApp_eq_false_iff (e : exprt) :
    e.hasFunApp = false ↔ ∀ t ∈ e.subterms, t.isFunApp = false := by
  constructor
  · intro h t ht
    cases hf : t.isFunApp
    · rfl
    · rw [(hasFunApp_iff_subterm e).2 ⟨t, ht, hf⟩] at h
      simp at h
  · intro h
    cases hb : e.hasFunApp
    · rfl
    · obtain ⟨t, ht, hf⟩ := (hasFunApp_iff_subterm e).1 hb
      rw [h t ht] at hf
      simp at hf

theorem is_fact_iff_no_app (c : horn_clauset) :
    c.is_fact = true ↔ ∀ t ∈ c.body.subterms, t.isFunApp = false := by
  unfold horn_clauset.is_fact
  rw [Bool.not_eq_true']
  exact hasFunApp_eq_false_iff c.body

theorem body_subterms_sub (c : horn_clauset) :
    ∀ t ∈ c.body.subterms, t ∈ c.m_chc.whr.subterms := by
  intro t ht
  unfold horn_clauset.body at ht
  split at ht
  · next A B heq =>
      rw [heq]
      simp only [exprt.subterms, List.mem_cons, List.mem_append]
      exact Or.inr (Or.inl ht)
  · exact ht

theorem is_query_iff (c : horn_clauset) :
    c.is_query = true ↔
      ∃ A B, c.m_chc.whr = .implies A B ∧
        ∀ t ∈ B.subterms, t.isFunApp = false := by
  unfold horn_clauset.is_query
  split
  · next A B heq =>
      rw [Bool.not_eq_true', hasFunApp_eq_false_iff]
      constructor
      · intro h
        exact ⟨A, B, heq, h⟩
      · rintro ⟨A', B', heq', h'⟩
        rw [heq] at heq'
        cases heq'
        exact h'
  · next hne =>
      constructor
      · intro h
        simp at h
      · rintro ⟨A', B', heq', h'⟩
        exact absurd heq' (hne A' B')

/-- C2: `is_fact()` returns true iff the body sub-term tree contains no
function-application node anywhere; consequently a clause whose whole
formula contains no function application has `is_fact() = true`. -/
theorem C2_is_fact_no_funapp :
    (∀ c : horn_clauset,
       c.is_fact = true ↔ ∀ t ∈ c.body.subterms, t.isFunApp = false) ∧
    (∀ c : horn_clauset,
       (∀ t ∈ c.m_chc.whr.subterms, t.isFunApp = false) →
         c.is_fact = true) := by
  constructor
  · exact is_fact_iff_no_app
  · intro c h
    exact (is_fact_iff_no_app c).2 fun t ht => h t (body_subterms_sub c t ht)

/-- C3: `is_query()` returns true iff the formula is an implication whose
consequent's sub-term tree contains no function-application node anywhere;
it returns false for every non-implication clause. -/
theorem C3_is_query_characterization :
    (∀ c : horn_clauset,
       c.is_query = true ↔
         ∃ A B, c.m_chc.whr = .implies A B ∧
           ∀ t ∈ B.subterms, t.isFunApp = false) ∧
    (∀ c : horn_clauset,
       c.m_chc.whr.isImplies = false → c.is_query = false) := by
  constructor
  · exact is_query_iff
  · intro c h
    cases hq : c.is_query
    · rfl
    · obtain ⟨A, B, heq, -⟩ := (is_query_iff c).1 hq
      rw [heq] at h
      simp [exprt.isImplies] at h

/-- C9: for a clause `∀vars. Implication(A, B)`, `body()` is `A` and
`head()` is `Some B`; for a non-implication formula `φ`, `body()` is `φ`
and `head()` is `None`. -/
theorem C9_body_head :
    (∀ (vs : List String) (A B : exprt),
       (horn_clauset.mk ⟨vs, .implies A B⟩).body = A ∧
       (horn_clauset.mk ⟨vs, .implies A B⟩).head = some B) ∧
    (∀ (vs : List String) (φ : exprt), φ.isImplies = false →
       (horn_clauset.mk ⟨vs, φ⟩).body = φ ∧
       (horn_clauset.mk ⟨vs, φ⟩).head = none) := by
  constructor
  · intro vs A B
    exact ⟨rfl, rfl⟩
  · intro vs φ h
    cases φ <;> simp_all [horn_clauset.body, horn_clauset.head, exprt.isImplies]

/-- C10: the fact and query classifications are not mutually exclusive:
for the clause `∀x. True ⇒ False` both `is_fact()` and `is_query()` return
true. -/
theorem C10_fact_query_overlap :
    (horn_clauset.mk
        ⟨["x"], .implies (.constant true) (.constant false)⟩).is_fact
      = true ∧
    (horn_clauset.mk
        ⟨["x"], .implies (.constant true) (.constant false)⟩).is_query
      = true := by
  decide

theorem add_clause_of_mem (db : chc_dbt) (f : forall_exprt)
    (h : ∃ c ∈ db.m_clauses, c.get_chc = f) : db.add_clause f = db := by
  unfold chc_dbt.add_clause forall_exprt.is_true
  have hany : db.m_clauses.any (fun c => decide (c.get_chc = f)) = true := by
    obtain ⟨c, hc, he⟩ := h
    exact List.any_eq_true.2 ⟨c, hc, decide_eq_true he⟩
  simp [hany]

theorem add_clause_of_not_mem (db : chc_dbt) (f : forall_exprt)
    (h : ∀ c ∈ db.m_clauses, c.get_chc ≠ f) :
    db.add_clause f =
      ⟨db.m_clauses ++ [⟨f⟩], db.m_state_preds, [], []⟩ := by
  unfold chc_dbt.add_clause forall_exprt.is_true chc_dbt.reset_indices
  have hany : db.m_clauses.any (fun c => decide (c.get_chc = f)) = false := by
    rw [List.any_eq_false]
    intro c hc
    simp [h c hc]
  simp [hany]

theorem add_clause_nodup (db : chc_dbt) (f : forall_exprt)
    (hdb : db.m_clauses.Nodup) : (db.add_clause f).m_clauses.Nodup := by
  by_cases h : ∃ c ∈ db.m_clauses, c.get_chc = f
  · rw [add_clause_of_mem db f h]
    exact hdb
  · push_neg at h
    rw [add_clause_of_not_mem db f h]
    refine List.Nodup.append hdb (List.nodup_singleton _) ?_
    intro a ha hb
    simp only [List.mem_singleton] at hb
    subst hb
    exact h _ ha rfl

theorem foldl_add_clause_nodup (fs : List forall_exprt) :
    ∀ db : chc_dbt, db.m_clauses.Nodup →
      (fs.foldl chc_dbt.add_clause db).m_clauses.Nodup := by
  induction fs with
  | nil => exact fun db h => h
  | cons g gs ih => exact fun db h => ih _ (add_clause_nodup db g h)

theorem foldl_add_clause_same (f : forall_exprt) (N : Nat) (db : chc_dbt)
    (h : ∃ c ∈ db.m_clauses, c.get_chc = f) :
    (List.replicate N f).foldl chc_dbt.add_clause db = db := by
  induction N with
  | zero => rfl
  | succ n ih =>
      rw [List.replicate_succ, List.foldl_cons, add_clause_of_mem db f h]
      exact ih

/-- C1: any sequence of `add_clause` calls leaves a corpus with no
trivially-true clause and no two structurally-equal clauses; inserting the
same clause `N ≥ 1` times into a fresh database leaves the corpus at size
1; and an insert whose argument is trivially true never changes the corpus
size. -/
theorem C1_add_clause_dedup_invariants :
    (∀ fs : List forall_exprt,
       (∀ c ∈ (fs.foldl chc_dbt.add_clause chc_dbt.empty).m_clauses,
          c.get_chc.is_true = false) ∧
       (fs.foldl chc_dbt.add_clause chc_dbt.empty).m_clauses.Nodup) ∧
    (∀ (f : forall_exprt) (N : Nat), 1 ≤ N →
       ((List.replicate N f).foldl chc_dbt.add_clause
           chc_dbt.empty).m_clauses.length = 1) ∧
    (∀ (db : chc_dbt) (f : forall_exprt), f.is_true = true →
       (db.add_clause f).m_clauses.length = db.m_clauses.length) := by
  refine ⟨fun fs => ⟨fun c _ => rfl, ?_⟩, fun f N hN => ?_, fun db f h => ?_⟩
  · exact foldl_add_clause_nodup fs chc_dbt.empty List.nodup_nil
  · obtain ⟨n, rfl⟩ : ∃ n, N = n + 1 := ⟨N - 1, (Nat.succ_pred_eq_of_pos hN).symm⟩
    rw [List.replicate_succ, List.foldl_cons]
    rw [add_clause_of_not_mem chc_dbt.empty f (by intro c hc; simp [chc_dbt.empty] at hc)]
    rw [foldl_add_clause_same f n _ ⟨⟨f⟩, by simp [chc_dbt.empty], rfl⟩]
    simp [chc_dbt.empty]
  · simp [forall_exprt.is_true] at h

/-- C6: a lookup miss on `use`, `def`, `outgoing` or `incoming` returns
the shared static empty-set member (`m_empty_set` / `m_expr_empty_set`) —
the same value on every miss — and that member is the empty set. -/
theorem C6_miss_lookups_shared_empty :
    (∀ (db : chc_dbt) (st : exprt),
       (∀ p ∈ db.m_body_idx, p.1 ≠ st) →
         db.use st = chc_dbt.m_empty_set) ∧
    (∀ (db : chc_dbt) (st : exprt),
       (∀ p ∈ db.m_head_idx, p.1 ≠ st) →
         db.def_ st = chc_dbt.m_empty_set) ∧
    (∀ (g : chc_grapht) (s : String),
       (∀ p ∈ g.m_outgoing, p.1 ≠ s) →
         g.outgoing s = chc_grapht.m_expr_empty_set) ∧
    (∀ (g : chc_grapht) (s : String),
       (∀ p ∈ g.m_incoming, p.1 ≠ s) →
         g.incoming s = chc_grapht.m_expr_empty_set) ∧
    chc_dbt.m_empty_set = [] ∧ chc_grapht.m_expr_empty_set = [] := by
  refine ⟨fun db st h => ?_, fun db st h => ?_,
    fun g s h => ?_, fun g s h => ?_, rfl, rfl⟩
  · unfold chc_dbt.use
    rw [List.find?_eq_none.2 fun p hp => by simp [h p hp]]
  · unfold chc_dbt.def_
    rw [List.find?_eq_none.2 fun p hp => by simp [h p hp]]
  · unfold chc_grapht.outgoing
    rw [List.find?_eq_none.2 fun p hp => by simp [h p hp]]
  · unfold chc_grapht.incoming
    rw [List.find?_eq_none.2 fun p hp => by simp [h p hp]]

/-- C7: `get_clause(id)` succeeds exactly on ids below the corpus size
(an out-of-range id fails the fatal `INVARIANT`, modelled as `none`), and
`entry()` succeeds exactly when `has_entry()` holds (calling it without an
entry fails the fatal `INVARIANT`, modelled as `none`). -/
theorem C7_invariant_guards :
    (∀ (db : chc_dbt) (idx : Nat),
       (db.get_clause idx).isSome = true ↔ idx < db.m_clauses.length) ∧
    (∀ g : chc_grapht,
       (g.entry.isSome = true ↔ g.has_entry = true) ∧
       (g.has_entry = false → g.entry = none)) := by
  constructor
  · intro db idx
    unfold chc_dbt.get_clause
    constructor
    · intro h
      by_contra hlt
      rw [List.get?_eq_none.2 (Nat.le_of_not_lt hlt)] at h
      simp at h
    · intro h
      rw [List.get?_eq_get h]
      rfl
  · intro g
    constructor
    · cases h : g.m_entry <;>
        simp [chc_grapht.entry, chc_grapht.has_entry, h]
    · intro h
      simp [chc_grapht.entry, h]

/-- C8 is refuted: a duplicate insert returns before `reset_indices()`, so
after `build_indices()` has filled the use-index, re-inserting the stored
clause leaves the index nonempty — had `reset_indices()` run, both indices
would be empty. -/
theorem C8_counterexample_duplicate_insert :
    (dbIndexed.add_clause fUseR).m_body_idx = [(.symbol "R", [0])] ∧
    ((.symbol "R", ([0] : chc_sett)) :: ([] : chc_indext)) ≠ [] := by
  exact ⟨by decide, by decide⟩

/-- C8 amended: `reset_indices()` (clearing both indices) takes effect on
exactly the `add_clause` calls that append — after inserting a clause with
no structurally-equal copy in the corpus both indices are empty, while an
insert whose argument is already stored, or trivially true, returns early
and leaves the database (indices included) unchanged. -/
theorem C8_amended_reset_only_on_append :
    (∀ (db : chc_dbt) (f : forall_exprt),
       (∀ c ∈ db.m_clauses, c.get_chc ≠ f) →
         (db.add_clause f).m_body_idx = [] ∧
         (db.add_clause f).m_head_idx = []) ∧
    (∀ (db : chc_dbt) (f : forall_exprt),
       (∃ c ∈ db.m_clauses, c.get_chc = f) → db.add_clause f = db) ∧
    (∀ (db : chc_dbt) (f : forall_exprt), f.is_true = true →
       db.add_clause f = db) := by
  refine ⟨fun db f h => ?_, add_clause_of_mem, fun db f h => ?_⟩
  · rw [add_clause_of_not_mem db f h]
    exact ⟨rfl, rfl⟩
  · simp [forall_exprt.is_true] at h

theorem record_use_clauses (i : Nat) (d : chc_dbt) (f : exprt) :
    (record_use i d f).m_clauses = d.m_clauses := by
  cases f with
  | funapp fn args => cases fn <;> rfl
  | constant b => rfl
  | symbol s => rfl
  | implies a b => rfl
  | node j ops => rfl

theorem index_clause_clauses (db d : chc_dbt) (p : Nat × horn_clauset) :
    (index_clause db d p).m_clauses = d.m_clauses := by
  unfold index_clause
  have h1 : ((p.2.used_func_app db).foldl (record_use p.1) d).m_clauses
      = d.m_clauses :=
    List.foldlRecOn (motive := fun x => x.m_clauses = d.m_clauses) _ _ _ rfl
      fun d2 hd2 f _ => (record_use_clauses p.1 d2 f).trans hd2
  cases hh : p.2.headDefRel db <;> simp only [hh] <;> exact h1

theorem build_indices_clauses (db : chc_dbt) :
    db.build_indices.m_clauses = db.m_clauses := by
  unfold chc_dbt.build_indices
  exact List.foldlRecOn (motive := fun x => x.m_clauses = db.m_clauses) _ _ _
    (rfl : db.reset_indices.m_clauses = db.m_clauses)
    fun d hd p _ => (index_clause_clauses db d p).trans hd

/-- C4 is refuted: on the database with relation `R` and the single clause
`∀x. R(x) ⇒ False`, after `build_indices()` the use-index answers
`use(R) = {0}`; inserting the new clause `∀x. True ⇒ R(x)` (which
references `R`) resets the indices, so `use(R)` becomes the empty set —
the result changed without a further `build_indices()` call. -/
theorem C4_counterexample_insert_changes_use :
    dbIndexed.use (.symbol "R") = [0] ∧
    (dbIndexed.add_clause fDefR).use (.symbol "R") = [] ∧
    ([0] : chc_sett) ≠ [] := by
  exact ⟨by decide, by decide, by decide⟩

/-- C4 amended: after `build_indices()`, inserting a new clause resets
both indices, so `use` and `def` answer the empty set — not the previously
indexed result — for every relation, until `build_indices()` is called
again. -/
theorem C4_amended_insert_resets_indices (db : chc_dbt) (f : forall_exprt)
    (st : exprt) (hnew : ∀ c ∈ db.m_clauses, c.get_chc ≠ f) :
    (db.build_indices.add_clause f).use st = [] ∧
    (db.build_indices.add_clause f).def_ st = [] := by
  have hnew' : ∀ c ∈ db.build_indices.m_clauses, c.get_chc ≠ f := by
    rw [build_indices_clauses]
    exact hnew
  rw [add_clause_of_not_mem _ f hnew']
  exact ⟨rfl, rfl⟩

/-- Witness for `C4_amended_insert_resets_indices` at the concrete indexed
database: inserting `∀x. True ⇒ R(x)` empties both lookups for `R`. -/
theorem C4_amended_witness :
    ((((chc_dbt.empty.add_state_pred "R").add_clause
          fUseR).build_indices.add_clause fDefR).use (.symbol "R") = [] ∧
     (((chc_dbt.empty.add_state_pred "R").add_clause
          fUseR).build_indices.add_clause fDefR).def_ (.symbol "R") = []) :=
  C4_amended_insert_resets_indices
    ((chc_dbt.empty.add_state_pred "R").add_clause fUseR) fDefR
    (.symbol "R") (by decide)

theorem add_edge_entry (s : String) (g : chc_grapht) (u : String) :
    (add_edge s g u).m_entry = g.m_entry := rfl

theorem graph_clause_entry (db : chc_dbt) (g : chc_grapht)
    (c : horn_clauset) : (graph_clause db g c).m_entry = g.m_entry := by
  unfold graph_clause
  rcases hh : c.headDefRel db with - | s
  · rfl
  · cases hf : c.is_fact
    · simp only [hf, Bool.false_eq_true, if_false]
      exact List.foldlRecOn (motive := fun x => x.m_entry = g.m_entry) _ _ _
        rfl fun g2 hg2 u _ => (add_edge_entry s g2 u).trans hg2
    · simp only [hf, if_true]

theorem build_edges_entry (db : chc_dbt) :
    (chc_grapht.build_edges db).m_entry = none := by
  unfold chc_grapht.build_edges
  exact List.foldlRecOn (motive := fun x => x.m_entry = none) _ _ _
    (rfl : (⟨[], [], none⟩ : chc_grapht).m_entry = none)
    fun g hg c _ => (graph_clause_entry db g c).trans hg

theorem build_graph_entry_singleton (db : chc_dbt) (R : String)
    (h : chc_grapht.entry_cands db = [R]) :
    (chc_grapht.build_graph db).m_entry = some R := by
  unfold chc_grapht.build_graph
  rw [h]

theorem build_graph_entry_none (db : chc_dbt)
    (h : ∀ R, chc_grapht.entry_cands db ≠ [R]) :
    (chc_grapht.build_graph db).m_entry = none := by
  unfold chc_grapht.build_graph
  rcases hc : chc_grapht.entry_cands db with - | ⟨R, - | ⟨R', t⟩⟩
  · exact build_edges_entry db
  · exact absurd hc (h R)
  · exact build_edges_entry db

theorem build_graph_incoming (db : chc_dbt) (s : String) :
    (chc_grapht.build_graph db).incoming s
      = (chc_grapht.build_edges db).incoming s := by
  unfold chc_grapht.build_graph
  split <;> rfl

theorem factHead_iff (db : chc_dbt) (R : String) :
    db.factHead R = true ↔
      ∃ c ∈ db.m_clauses, c.is_fact = true ∧ c.headRelName = some R := by
  unfold chc_dbt.factHead
  rw [List.any_eq_true]
  constructor
  · rintro ⟨c, hc, h⟩
    rw [Bool.and_eq_true, decide_eq_true_eq] at h
    exact ⟨c, hc, h⟩
  · rintro ⟨c, hc, h1, h2⟩
    refine ⟨c, hc, ?_⟩
    rw [Bool.and_eq_true, decide_eq_true_eq]
    exact ⟨h1, h2⟩

theorem entry_candidatep_iff (db : chc_dbt) (R : String) :
    entry_candidatep db R ↔
      R ∈ db.m_state_preds ∧
      (db.factHead R
        && ((chc_grapht.build_edges db).incoming R).isEmpty) = true := by
  unfold entry_candidatep
  rw [build_graph_incoming, Bool.and_eq_true, factHead_iff]
  constructor
  · rintro ⟨h1, h2, h3⟩
    exact ⟨h1, h2, by rw [h3]; rfl⟩
  · rintro ⟨h1, h2, h3⟩
    refine ⟨h1, h2, ?_⟩
    cases hi : (chc_grapht.build_edges db).incoming R
    · rfl
    · rw [hi] at h3
      simp at h3

theorem filter_eq_singleton_iff {α : Type} (p : α → Bool) (a : α) :
    ∀ l : List α, l.Nodup →
      (l.filter p = [a] ↔
        a ∈ l ∧ p a = true ∧ ∀ b ∈ l, p b = true → b = a) := by
  intro l
  induction l with
  | nil =>
      intro _
      simp
  | cons x xs ih =>
      intro hl
      rw [List.nodup_cons] at hl
      obtain ⟨hx, hxs⟩ := hl
      by_cases hp : p x = true
      · rw [List.filter_cons_of_pos hp]
        constructor
        · intro h
          injection h with h1 h2
          subst h1
          refine ⟨List.mem_cons_self _ _, hp, ?_⟩
          intro b hb hpb
          rcases List.mem_cons.1 hb with rfl | hbxs
          · rfl
          · exfalso
            have hbf : b ∈ xs.filter p := List.mem_filter.2 ⟨hbxs, hpb⟩
            rw [h2] at hbf
            simp at hbf
        · rintro ⟨ha, hpa, huniq⟩
          have hax : x = a := huniq x (List.mem_cons_self _ _) hp
          subst hax
          have hnil : xs.filter p = [] := by
            rw [List.filter_eq_nil_iff]
            intro b hb hpb
            have hba := huniq b (List.mem_cons_of_mem _ hb) hpb
            subst hba
            exact hx hb
          rw [hnil]
      · rw [List.filter_cons_of_neg hp]
        rw [ih hxs]
        constructor
        · rintro ⟨ha, hpa, huniq⟩
          refine ⟨List.mem_cons_of_mem _ ha, hpa, ?_⟩
          intro b hb hpb
          rcases List.mem_cons.1 hb with rfl | hbxs
          · exact absurd hpb hp
          · exact huniq b hbxs hpb
        · rintro ⟨ha, hpa, huniq⟩
          rcases List.mem_cons.1 ha with rfl | haxs
          · exact absurd hpa hp
          · exact ⟨haxs, hpa,
              fun b hb hpb => huniq b (List.mem_cons_of_mem _ hb) hpb⟩

theorem entry_cands_eq_singleton_iff (db : chc_dbt)
    (hnd : db.m_state_preds.Nodup) (R : String) :
    chc_grapht.entry_cands db = [R] ↔
      entry_candidatep db R ∧
      ∀ R' : String, entry_candidatep db R' → R' = R := by
  unfold chc_grapht.entry_cands
  rw [filter_eq_singleton_iff _ R db.m_state_preds hnd]
  constructor
  · rintro ⟨h1, h2, h3⟩
    refine ⟨(entry_candidatep_iff db R).2 ⟨h1, h2⟩, ?_⟩
    intro R' hR'
    obtain ⟨hm, hp⟩ := (entry_candidatep_iff db R').1 hR'
    exact h3 R' hm hp
  · rintro ⟨hc, hu⟩
    obtain ⟨hm, hp⟩ := (entry_candidatep_iff db R).1 hc
    exact ⟨hm, hp,
      fun R' hm' hp' => hu R' ((entry_candidatep_iff db R').2 ⟨hm', hp'⟩)⟩

/-- C5: after `build_graph`, a relation is the entry iff it satisfies the
spec's entry condition — head of at least one fact clause, zero incoming
edges in the built graph — and is the unique declared relation doing so;
when no unique such relation exists `has_entry()` is false, and whenever
`has_entry()` holds `entry()` returns the entry relation. -/
theorem C5_entry_detection (db : chc_dbt)
    (hnd : db.m_state_preds.Nodup) :
    (∀ R : String,
       (chc_grapht.build_graph db).m_entry = some R ↔
         entry_candidatep db R ∧
         ∀ R' : String, entry_candidatep db R' → R' = R) ∧
    ((¬ ∃ R : String, entry_candidatep db R ∧
         ∀ R' : String, entry_candidatep db R' → R' = R) →
       (chc_grapht.build_graph db).has_entry = false) ∧
    ((chc_grapht.build_graph db).has_entry = true →
       (chc_grapht.build_graph db).entry
         = (chc_grapht.build_graph db).m_entry) := by
  refine ⟨fun R => ?_, fun hne => ?_, fun h => ?_⟩
  · constructor
    · intro h
      by_cases hc : ∃ R', chc_grapht.entry_cands db = [R']
      · obtain ⟨R', hR'⟩ := hc
        rw [build_graph_entry_singleton db R' hR'] at h
        injection h with h
        subst h
        exact (entry_cands_eq_singleton_iff db hnd R').1 hR'
      · push_neg at hc
        rw [build_graph_entry_none db hc] at h
        cases h
    · intro hcand
      exact build_graph_entry_singleton db R
        ((entry_cands_eq_singleton_iff db hnd R).2 hcand)
  · by_cases hc : ∃ R', chc_grapht.entry_cands db = [R']
    · obtain ⟨R', hR'⟩ := hc
      exact absurd ⟨R', (entry_cands_eq_singleton_iff db hnd R').1 hR'⟩ hne
    · push_neg at hc
      unfold chc_grapht.has_entry
      rw [build_graph_entry_none db hc]
      rfl
  · unfold chc_grapht.entry
    rw [h]
    rfl

/-- Witness for `C5_entry_detection` on the spec's `Init`/`Step`/`Reach`
example: `Init` is the head of the fact `True ⇒ Init(x)`, has no incoming
edges, is the only such relation, and `build_graph` selects it. -/
theorem C5_entry_detection_witness :
    (chc_grapht.build_graph dbExample).m_entry = some "Init" := by
  refine ((C5_entry_detection dbExample (by decide)).1 "Init").2 ⟨?_, ?_⟩
  · unfold entry_candidatep
    refine ⟨by decide, ?_, by decide⟩
    refine ⟨⟨⟨["x"], .implies (.constant true)
      (.funapp (.symbol "Init") [.symbol "x"])⟩⟩, by decide, by decide, by decide⟩
  · intro R' h'
    obtain ⟨hm, hfact, hinc⟩ := h'
    have he : dbExample.m_state_preds = ["Reach", "Step", "Init"] := by decide
    rw [he] at hm
    have hm' : R' = "Reach" ∨ R' = "Step" ∨ R' = "Init" := by simpa using hm
    rcases hm' with rfl | rfl | rfl
    · exact absurd hfact (by decide)
    · exact absurd hfact (by decide)
    · rfl

end ChcDb
